import Mathlib

/-!
Verification of the `style-markdown` rewrite rules (`src/main.rs`).

Documents are modelled as `List Char`; the length used by the code is
Rust's `str::len`, the UTF-8 byte length, modelled by `rustLen`.
Regex scanning (`Regex::replace_all`, `Regex::split`) for the fixed
patterns of the program is modelled by an explicit leftmost,
non-overlapping scanner `replaceAll` driven by a per-position matcher
for each pattern.
-/

namespace StyleMarkdown

/-- Rust `str::len`: the UTF-8 byte length of the text. -/
def rustLen (s : List Char) : Nat := (s.map Char.utf8Size).sum

/-- Length of the run of spaces at the head of the list
(the greedy match of the regex `" +"` at this position). -/
def spaceCount : List Char → Nat
  | ' ' :: cs => spaceCount cs + 1
  | _ => 0

/-- Split the text at the first occurrence of `x`:
`breakAt x s = some (a, b)` when `s = a ++ x :: b` and `x ∉ a`
(the greedy match of `[^x]*x`); `none` when `x` does not occur. -/
def breakAt (x : Char) : List Char → Option (List Char × List Char)
  | [] => none
  | c :: cs =>
    if c = x then some ([], cs)
    else (breakAt x cs).map (fun p => (c :: p.1, p.2))

/-- Rust `str::split(sep)`: every separator splits, empty pieces kept,
the empty string gives one empty piece. -/
def splitOnChar (x : Char) : List Char → List (List Char)
  | [] => [[]]
  | c :: cs =>
    if c = x then [] :: splitOnChar x cs
    else
      match splitOnChar x cs with
      | p :: ps => (c :: p) :: ps
      | [] => [[c]]

/-- Rust `str::split_terminator(sep)`: like `split`, but the final piece
is dropped when it is empty. -/
def splitTerminator (x : Char) (s : List Char) : List (List Char) :=
  let ps := splitOnChar x s
  if ps.getLast? = some [] then ps.dropLast else ps

/-- `itertools::join("\n")` over pieces. -/
def joinNl (ps : List (List Char)) : List Char := List.intercalate ['\n'] ps

/-- Join pieces with single spaces. -/
def joinSp (ps : List (List Char)) : List Char := List.intercalate [' '] ps

/-- The recursion of `replaceAll`, structural on a fuel argument (the
fuel is always at least the length of the text, so it never runs out). -/
def replaceAllF (m : List Char → Option (List Char × Nat)) : Nat → List Char → List Char
  | _, [] => []
  | 0, s => s
  | fuel + 1, c :: cs =>
    match m (c :: cs) with
    | some (r, n) => r ++ replaceAllF m fuel (cs.drop (n - 1))
    | none => c :: replaceAllF m fuel cs

/-- `Regex::replace_all` for the fixed patterns of the program: `m s`
returns, when the pattern matches at the head of `s`, the replacement
text and the length of the match (always positive for these patterns).
The scan is leftmost and non-overlapping: after a match the scan
resumes right after the matched span, otherwise it advances one
character. -/
def replaceAll (m : List Char → Option (List Char × Nat)) (s : List Char) : List Char :=
  replaceAllF m s.length s



/-! ## `canonicalize_quotes` (main.rs 152-157) -/

/-- `before.replace(|c| "‘’".contains(c), "'").replace(|c| "“”".contains(c), "\"")`. -/
def canonicalize_quotes (before : List Char) : List Char :=
  (before.map (fun c => if c = '‘' ∨ c = '’' then '\'' else c)).map
    (fun c => if c = '“' ∨ c = '”' then '"' else c)

/-! ## `remove_embedded_images` (main.rs 159-163) -/

/-- Match of `<data:image/[^>]*>` at the head of `s`: the literal prefix,
then greedily up to the first `>`. Returns the length of the match. -/
def imageTry (s : List Char) : Option Nat :=
  if ("<data:image/".toList).isPrefixOf s then
    match breakAt '>' (s.drop 12) with
    | some (body, _) => some (12 + body.length + 1)
    | none => none
  else none

/-- The recursion of `imageSplit`, structural on a fuel argument. -/
def imageSplitF : Nat → List Char → List (List Char)
  | _, [] => [[]]
  | 0, _ => [[]]
  | fuel + 1, c :: cs =>
    match imageTry (c :: cs) with
    | some n => [] :: imageSplitF fuel (cs.drop (n - 1))
    | none =>
      match imageSplitF fuel cs with
      | p :: ps => (c :: p) :: ps
      | [] => [[c]]

/-- `Regex::split` on `<data:image/[^>]*>`: the pieces of the document
between the (leftmost, non-overlapping) matches. -/
def imageSplit (s : List Char) : List (List Char) := imageSplitF s.length s



/-- `data_image.split(&before).join("TODO")`. -/
def remove_embedded_images (before : List Char) : List Char :=
  List.intercalate ("TODO".toList) (imageSplit before)

/-! ## `simplify_urls` (main.rs 173-186) -/

/-- Match of `\[(?<text>[^\]]*)\]\((?<link>[^)]*)\)` at the head, with
the replacement the closure computes: `<link>` when `text` with all
backslashes removed equals `link`, the whole match otherwise. -/
def urlTry (s : List Char) : Option (List Char × Nat) :=
  match s with
  | c :: rest =>
    if c = '[' then
      match breakAt ']' rest with
      | some (text, rest2) =>
        match rest2 with
        | c2 :: rest3 =>
          if c2 = '(' then
            match breakAt ')' rest3 with
            | some (link, _) =>
              some
                (if text.filter (fun c => c ≠ '\\') = link
                 then '<' :: (link ++ ['>'])
                 else '[' :: (text ++ ']' :: '(' :: (link ++ [')'])),
                 1 + text.length + 2 + link.length + 1)
            | none => none
          else none
        | [] => none
      | none => none
    else none
  | [] => none

/-- `link.replace_all(&before, ...)` of `simplify_urls`. -/
def simplify_urls (before : List Char) : List Char := replaceAll urlTry before

/-! ## `add_semantic_line_breaks` (main.rs 188-272) -/

/-- `max_line_length` (main.rs 189). -/
def max_line_length : Nat := 100

/-- `line.trim_ascii_start()`. -/
def trimAsciiStart : List Char → List Char
  | c :: cs =>
    if c = ' ' ∨ c = '\t' ∨ c = '\n' ∨ c = '\x0d' ∨ c = '\x0c'
    then trimAsciiStart cs else c :: cs
  | [] => []

/-- `line.trim_ascii_start().starts_with('#')` (main.rs 203). -/
def isHeading (line : List Char) : Bool :=
  match trimAsciiStart line with
  | '#' :: _ => true
  | _ => false

/-- The outer-tier separator class `(?<before>[.!?;:]) +` (main.rs 258). -/
def isOuterPunct (c : Char) : Bool :=
  c = '.' ∨ c = '!' ∨ c = '?' ∨ c = ';' ∨ c = ':'

/-- Match of the outer separator at the head: a sentence-ending
punctuation mark followed by one or more spaces, replaced by the mark
and a line break (main.rs 211-219). -/
def outerTry (s : List Char) : Option (List Char × Nat) :=
  match s with
  | c :: cs =>
    if isOuterPunct c ∧ cs.head? = some ' '
    then some ([c, '\n'], 1 + spaceCount cs)
    else none
  | [] => none

/-- `line_starting_words` (main.rs 249). -/
def line_starting_words : List (List Char) :=
  ["because".toList, "that".toList, "rather than".toList,
   "of how".toList, "in order to".toList]

/-- The number of words of a phrase: `conjunction.split(' ')` length
(main.rs 253). -/
def phraseWords (w : List Char) : Nat := (splitOnChar ' ' w).length

/-- Stable insertion for the descending-by-word-count sort: a phrase is
placed before the first phrase with strictly fewer words, so phrases
with equal counts keep their original order. -/
def insertByWords (w : List Char) : List (List Char) → List (List Char)
  | [] => [w]
  | x :: xs =>
    if phraseWords x ≤ phraseWords w then w :: x :: xs
    else x :: insertByWords w xs

/-- Stable sort by word count, more words first (`sorted_by` with the
reversed comparator, main.rs 252-255). -/
def sortByWords : List (List Char) → List (List Char)
  | [] => []
  | w :: ws => insertByWords w (sortByWords ws)

/-- The phrases sorted stably by word count, more words first
(main.rs 252-255), as they stand in the alternation of the regex. -/
def sortedWords : List (List Char) := sortByWords line_starting_words

/-- The break-before alternatives of the inner tier, in the order of the
alternation `\(|\[|{line_starting_words_regex}` (main.rs 260). -/
def innerAfterAlts : List (List Char) := ['('] :: ['['] :: sortedWords

/-- The closing-punctuation class `[,)\]]` of the inner tier. -/
def isInnerPunct (c : Char) : Bool := c = ',' ∨ c = ')' ∨ c = ']'

/-- Match of the inner separator at the head: either a closing mark
followed by spaces (break after it), or spaces followed by an opening
bracket or one of the phrases (break before it), the first alternative
preferred (main.rs 259-260). -/
def innerTry (s : List Char) : Option (List Char × Nat) :=
  match s with
  | c :: cs =>
    if isInnerPunct c ∧ cs.head? = some ' '
    then some ([c, '\n'], 1 + spaceCount cs)
    else
      if c = ' ' then
        match (innerAfterAlts.filter (fun w => w.isPrefixOf ((c :: cs).drop (spaceCount (c :: cs))))).head? with
        | some w => some ('\n' :: w, spaceCount (c :: cs) + w.length)
        | none => none
      else none
  | [] => none

/-- The rejoin loop of `add_line_breaks` (main.rs 225-243): walk the
fragments; at `current_line_length == 0` start the line with the
fragment, else join with one space when the stored length plus the
fragment's length stays under the limit (the joining space is not
counted), else break. -/
def rejoinLoop (maxLen : Nat) : List (List Char) → Nat → List Char
  | [], _ => []
  | l :: ls, cur =>
    if cur = 0 then l ++ rejoinLoop maxLen ls (rustLen l)
    else if cur + rustLen l < maxLen then ' ' :: (l ++ rejoinLoop maxLen ls (cur + rustLen l))
    else '\n' :: (l ++ rejoinLoop maxLen ls (rustLen l))

/-- `add_line_breaks` (main.rs 196-245), the separator regex given as
its per-position matcher: short-circuit short lines and headings, break
at every separator, then greedily rejoin. -/
def add_line_breaks (m : List Char → Option (List Char × Nat))
    (line : List Char) (maxLen : Nat) : List Char :=
  if rustLen line < maxLen ∨ isHeading line = true then line
  else rejoinLoop maxLen (splitOnChar '\n' (replaceAll m line)) 0

/-- The per-line body of `add_semantic_line_breaks` (main.rs 264-269):
the outer pass, then the inner pass on each resulting line. -/
def processLine (line : List Char) : List Char :=
  joinNl ((splitTerminator '\n' (add_line_breaks outerTry line max_line_length)).map
    (fun l => add_line_breaks innerTry l max_line_length))

/-- `add_semantic_line_breaks` (main.rs 188-272). -/
def add_semantic_line_breaks (before : List Char) : List Char :=
  joinNl ((splitTerminator '\n' before).map processLine)

/-! ## `canonicalize_through_running` (main.rs 274-281) -/

/-- The recursion of `replaceSubstr`, structural on a fuel argument. -/
def replaceSubstrF (pat rep : List Char) : Nat → List Char → List Char
  | _, [] => []
  | 0, s => s
  | fuel + 1, c :: cs =>
    if pat ≠ [] ∧ pat.isPrefixOf (c :: cs)
    then rep ++ replaceSubstrF pat rep fuel ((c :: cs).drop pat.length)
    else c :: replaceSubstrF pat rep fuel cs

/-- Rust `str::replace(pat, rep)`: one leftmost, non-overlapping
left-to-right pass replacing every occurrence of `pat` by `rep`. -/
def replaceSubstr (pat rep : List Char) (s : List Char) : List Char :=
  replaceSubstrF pat rep s.length s



/-- The four chained `replace` calls of `canonicalize_through_running`. -/
def canonicalize_through_running (before : List Char) : List Char :=
  replaceSubstr ("run through".toList) ("through-run".toList)
    (replaceSubstr ("through run".toList) ("through-run".toList)
      (replaceSubstr ("running through".toList) ("through-running".toList)
        (replaceSubstr ("through running".toList) ("through-running".toList) before)))

/-! ## `move_footnotes_after_punctuation` (main.rs 283-290) -/

/-- The punctuation class `[.!?;,]` of the footnote regex (main.rs 284). -/
def isFootPunct (c : Char) : Bool :=
  c = '.' ∨ c = '!' ∨ c = '?' ∨ c = ';' ∨ c = ','

/-- Match of `(?<footnote>\[\^[^\]]*\])(?<punctuation>[.!?;,])` at the
head, replaced by the punctuation followed by the footnote. -/
def footTry (s : List Char) : Option (List Char × Nat) :=
  match s with
  | a :: b :: rest =>
    if a = '[' ∧ b = '^' then
      match breakAt ']' rest with
      | some (label, after) =>
        match after with
        | c :: _ =>
          if isFootPunct c
          then some (c :: '[' :: '^' :: (label ++ [']']), 2 + label.length + 1 + 1)
          else none
        | [] => none
      | none => none
    else none
  | _ => none

/-- `regex.replace_all(&before, ...)` of `move_footnotes_after_punctuation`. -/
def move_footnotes_after_punctuation (before : List Char) : List Char :=
  replaceAll footTry before


/-! ## Specification-side definitions used to state the claims -/

/-- The character map that the claim about `canonicalize_quotes`
describes: the four curly quotes go to their ASCII counterparts, every
other character is untouched. -/
def quoteMap (c : Char) : Char :=
  if c = '‘' ∨ c = '’' then '\''
  else if c = '“' ∨ c = '”' then '"' else c

/-- A span of text that the embedded-image regex `<data:image/[^>]*>`
matches in full: the literal prefix, a body free of `>`, a closing `>`. -/
def IsImageSpan (mch : List Char) : Prop :=
  ∃ body : List Char, mch = ("<data:image/".toList) ++ body ++ ['>'] ∧ '>' ∉ body

/-- Interleave pieces and matched spans back into the original text:
`p0 ++ m1 ++ p1 ++ ... ++ mN ++ pN`. -/
def interleaveJoin : List (List Char) → List (List Char) → List Char
  | [], _ => []
  | p :: _, [] => p
  | p :: ps, mch :: ms => p ++ mch ++ interleaveJoin ps ms

/-- Total fragment length of a rejoined line, the joining spaces not
counted — the quantity `current_line_length` of the rejoin loop tracks. -/
def rustLenSum (ls : List (List Char)) : Nat := (ls.map rustLen).sum

/-- The grouping of fragments that the rejoin loop produces: the loop
state is the group of fragments of the line being built (`[]` exactly
when `current_line_length` is `0`; an empty fragment consumed in that
state contributes nothing to the line and is dropped). -/
def rejoinGroupsAux (maxLen : Nat) : List (List Char) → List (List Char) → List (List (List Char))
  | [], acc => [acc]
  | l :: ls, acc =>
    if acc = [] then
      rejoinGroupsAux maxLen ls (if rustLen l = 0 then [] else [l])
    else if rustLenSum acc + rustLen l < maxLen then
      rejoinGroupsAux maxLen ls (acc ++ [l])
    else
      acc :: rejoinGroupsAux maxLen ls (if rustLen l = 0 then [] else [l])

/-! ## The documents of the repository's test corpus (main.rs 302-380) -/

/-- The input document of `test_add_semantic_line_breaks` (main.rs 336-344). -/
def slbBefore : List Char :=
  ("\n# A Not-So-Capital Plan Part 2: The Future is Electric\n\nMetro-North's M8 can run on catenary power (left[^M8-catenary-pantograph-citation]) or on either over- or under-running third rails (shoe seen at right[^M8-third-rail-shoe-citation]).\n\n## Introduction\n\nIn major cities all across the globe, electric trains form the backbone of urban transportation. The benefits of electrification are simply too great to ignore. Electric trains accelerate faster, reduce overall journey times, and provide a higher-quality passenger experience than their diesel-powered counterparts, all while being cheaper to run and maintain. Electric trains are also a powerful tool for decarbonization: they can easily run on non-carbon fuel sources and produce no local pollution. It is rare that a single technology can reduce both pollution and costs while also actually improving service, but electric rail can accomplish just that. That is why the future of rail is electric around both the country and the world.\n        ").toList

/-- The output document that `test_add_semantic_line_breaks` expects
(main.rs 345-363). -/
def slbExpected : List Char :=
  ("\n# A Not-So-Capital Plan Part 2: The Future is Electric\n\nMetro-North's M8 can run on catenary power (left[^M8-catenary-pantograph-citation])\nor on either over- or under-running third rails (shoe seen at right[^M8-third-rail-shoe-citation]).\n\n## Introduction\n\nIn major cities all across the globe, electric trains form the backbone of urban transportation.\nThe benefits of electrification are simply too great to ignore.\nElectric trains accelerate faster, reduce overall journey times,\nand provide a higher-quality passenger experience than their diesel-powered counterparts,\nall while being cheaper to run and maintain.\nElectric trains are also a powerful tool for decarbonization:\nthey can easily run on non-carbon fuel sources and produce no local pollution.\nIt is rare that a single technology can reduce both pollution and costs while also actually improving service,\nbut electric rail can accomplish just that.\nThat is why the future of rail is electric around both the country and the world.\n        ").toList

/-- What `add_semantic_line_breaks` actually produces on `slbBefore`:
identical to `slbExpected` except that the sentence `It is rare that a
single technology ...` is broken before the conjunction `that` (the
inner-tier phrase list contains `that`), leaving `It is rare` on a line
of its own. -/
def slbCodeOutput : List Char :=
  ("\n# A Not-So-Capital Plan Part 2: The Future is Electric\n\nMetro-North's M8 can run on catenary power (left[^M8-catenary-pantograph-citation])\nor on either over- or under-running third rails (shoe seen at right[^M8-third-rail-shoe-citation]).\n\n## Introduction\n\nIn major cities all across the globe, electric trains form the backbone of urban transportation.\nThe benefits of electrification are simply too great to ignore.\nElectric trains accelerate faster, reduce overall journey times,\nand provide a higher-quality passenger experience than their diesel-powered counterparts,\nall while being cheaper to run and maintain.\nElectric trains are also a powerful tool for decarbonization:\nthey can easily run on non-carbon fuel sources and produce no local pollution.\nIt is rare\nthat a single technology can reduce both pollution and costs while also actually improving service,\nbut electric rail can accomplish just that.\nThat is why the future of rail is electric around both the country and the world.\n        ").toList

/-- The input of `test_canonicalize_through_running` (main.rs 369). -/
def trBefore : List Char :=
  ("through-running, through running, running through, through-run, through run, run through").toList

/-- The expected output of `test_canonicalize_through_running` (main.rs 370). -/
def trAfter : List Char :=
  ("through-running, through-running, through-running, through-run, through-run, through-run").toList

/-- A 101-byte line of three sentences of 33 bytes each: the engine
rejoins all three fragments (33 + 33 = 66 < 100, 66 + 33 = 99 < 100 with
the two joining spaces not counted), so the line comes back unchanged at
101 bytes although outer break points exist. -/
def c1line : List Char :=
  ("aaaaaaaaaaaaaaaaaaaaaaaaaaaaaaaa. aaaaaaaaaaaaaaaaaaaaaaaaaaaaaaaa. aaaaaaaaaaaaaaaaaaaaaaaaaaaaaaaa.").toList

/-- A 101-byte line whose single outer separator is followed by three
spaces: the engine splits there and rejoins (49 + 48 < 100), emitting a
single joining space, so the line is altered without gaining a break. -/
def c6line : List Char :=
  ("bbbbbbbbbbbbbbbbbbbbbbbbbbbbbbbbbbbbbbbbbbbbbbbbb.   cccccccccccccccccccccccccccccccccccccccccccccccc").toList

/-- The engine's output on `c6line`: the run of three spaces after the
period collapsed to one. -/
def c6lineOut : List Char :=
  ("bbbbbbbbbbbbbbbbbbbbbbbbbbbbbbbbbbbbbbbbbbbbbbbbb. cccccccccccccccccccccccccccccccccccccccccccccccc").toList

/-! ## Unfolding equations for the fuel-based scanners -/

theorem replaceAllF_congr (m : List Char → Option (List Char × Nat)) :
    ∀ f g s, s.length ≤ f → s.length ≤ g → replaceAllF m f s = replaceAllF m g s := by
  intro f
  induction f with
  | zero =>
    intro g s hf _
    have : s = [] := List.eq_nil_of_length_eq_zero (Nat.le_zero.mp hf)
    subst this
    cases g <;> rfl
  | succ f ih =>
    intro g s hf hg
    cases s with
    | nil => cases g <;> rfl
    | cons c cs =>
      cases g with
      | zero => simp at hg
      | succ g =>
        simp only [replaceAllF]
        cases m (c :: cs) with
        | some rn =>
          simp only []
          have hlen : (cs.drop (rn.2 - 1)).length ≤ cs.length := by
            simp [List.length_drop]
          have h1 : (cs.drop (rn.2 - 1)).length ≤ f := by
            simp only [List.length_cons] at hf; omega
          have h2 : (cs.drop (rn.2 - 1)).length ≤ g := by
            simp only [List.length_cons] at hg; omega
          rw [ih g _ h1 h2]
        | none =>
          simp only [List.length_cons] at hf hg
          rw [ih g cs (by omega) (by omega)]

theorem replaceAll_nil (m : List Char → Option (List Char × Nat)) :
    replaceAll m [] = [] := rfl

/-- The defining equation of the scan on a nonempty text. -/
theorem replaceAll_cons (m : List Char → Option (List Char × Nat)) (c : Char) (cs : List Char) :
    replaceAll m (c :: cs) =
      match m (c :: cs) with
      | some (r, n) => r ++ replaceAll m (cs.drop (n - 1))
      | none => c :: replaceAll m cs := by
  show replaceAllF m (c :: cs).length (c :: cs) = _
  simp only [List.length_cons, replaceAllF]
  cases m (c :: cs) with
  | some rn =>
    simp only [replaceAll]
    rw [replaceAllF_congr m cs.length (cs.drop (rn.2 - 1)).length (cs.drop (rn.2 - 1))
      (by simp [List.length_drop]) (Nat.le_refl _)]
  | none =>
    simp only [replaceAll]

theorem imageSplitF_congr :
    ∀ f g s, s.length ≤ f → s.length ≤ g → imageSplitF f s = imageSplitF g s := by
  intro f
  induction f with
  | zero =>
    intro g s hf _
    have : s = [] := List.eq_nil_of_length_eq_zero (Nat.le_zero.mp hf)
    subst this
    cases g <;> rfl
  | succ f ih =>
    intro g s hf hg
    cases s with
    | nil => cases g <;> rfl
    | cons c cs =>
      cases g with
      | zero => simp at hg
      | succ g =>
        simp only [imageSplitF]
        simp only [List.length_cons] at hf hg
        cases imageTry (c :: cs) with
        | some n =>
          have hlen : (cs.drop (n - 1)).length ≤ cs.length := by
            simp [List.length_drop]
          dsimp only
          rw [ih g _ (by omega) (by omega)]
        | none =>
          dsimp only
          rw [ih g cs (by omega) (by omega)]

theorem imageSplit_nil : imageSplit [] = [[]] := rfl

/-- The defining equation of the split on a nonempty text. -/
theorem imageSplit_cons (c : Char) (cs : List Char) :
    imageSplit (c :: cs) =
      match imageTry (c :: cs) with
      | some n => [] :: imageSplit (cs.drop (n - 1))
      | none =>
        match imageSplit cs with
        | p :: ps => (c :: p) :: ps
        | [] => [[c]] := by
  show imageSplitF (c :: cs).length (c :: cs) = _
  simp only [List.length_cons, imageSplitF]
  cases imageTry (c :: cs) with
  | some n =>
    simp only [imageSplit]
    rw [imageSplitF_congr cs.length (cs.drop (n - 1)).length (cs.drop (n - 1))
      (by simp [List.length_drop]) (Nat.le_refl _)]
  | none =>
    simp only [imageSplit]

theorem replaceSubstrF_congr (pat rep : List Char) :
    ∀ f g s, s.length ≤ f → s.length ≤ g → replaceSubstrF pat rep f s = replaceSubstrF pat rep g s := by
  intro f
  induction f with
  | zero =>
    intro g s hf _
    have : s = [] := List.eq_nil_of_length_eq_zero (Nat.le_zero.mp hf)
    subst this
    cases g <;> rfl
  | succ f ih =>
    intro g s hf hg
    cases s with
    | nil => cases g <;> rfl
    | cons c cs =>
      cases g with
      | zero => simp at hg
      | succ g =>
        simp only [replaceSubstrF]
        simp only [List.length_cons] at hf hg
        by_cases h : pat ≠ [] ∧ pat.isPrefixOf (c :: cs)
        · rw [if_pos h, if_pos h]
          have hlen : ((c :: cs).drop pat.length).length ≤ cs.length := by
            simp only [List.length_drop, List.length_cons]
            cases pat with
            | nil => exact absurd rfl h.1
            | cons p ps => simp only [List.length_cons]; omega
          rw [ih g _ (by omega) (by omega)]
        · rw [if_neg h, if_neg h, ih g cs (by omega) (by omega)]

theorem replaceSubstr_nil (pat rep : List Char) : replaceSubstr pat rep [] = [] := rfl

/-- The defining equation of the substring replacement on a nonempty text. -/
theorem replaceSubstr_cons (pat rep : List Char) (c : Char) (cs : List Char) :
    replaceSubstr pat rep (c :: cs) =
      if pat ≠ [] ∧ pat.isPrefixOf (c :: cs)
      then rep ++ replaceSubstr pat rep ((c :: cs).drop pat.length)
      else c :: replaceSubstr pat rep cs := by
  show replaceSubstrF pat rep (c :: cs).length (c :: cs) = _
  simp only [List.length_cons, replaceSubstrF]
  by_cases h : pat ≠ [] ∧ pat.isPrefixOf (c :: cs)
  · rw [if_pos h, if_pos h]
    simp only [replaceSubstr]
    cases pat with
    | nil => exact absurd rfl h.1
    | cons p ps =>
      rw [replaceSubstrF_congr _ _ cs.length ((c :: cs).drop (p :: ps).length).length _
        (by simp only [List.length_drop, List.length_cons]; omega) (Nat.le_refl _)]
  · rw [if_neg h, if_neg h]
    simp only [replaceSubstr]

/-! ## Splitting and joining -/

theorem splitOnChar_of_not_mem {x : Char} {l : List Char} (h : x ∉ l) :
    splitOnChar x l = [l] := by
  induction l with
  | nil => rfl
  | cons c cs ih =>
    rw [List.mem_cons, not_or] at h
    unfold splitOnChar
    rw [if_neg (fun hc => h.1 hc.symm), ih h.2]

theorem splitTerminator_of_not_mem {x : Char} {l : List Char} (h : x ∉ l) :
    splitTerminator x l = if l = [] then [] else [l] := by
  unfold splitTerminator
  rw [splitOnChar_of_not_mem h]
  by_cases hl : l = []
  · subst hl
    simp
  · rw [if_neg (by simp [hl]), if_neg hl]

theorem intercalate_single (sep a : List Char) : List.intercalate sep [a] = a := by
  simp [List.intercalate]

/-! ## C2: the short-circuit of the engine -/

theorem add_line_breaks_short_circuit (m : List Char → Option (List Char × Nat))
    (line : List Char) (maxLen : Nat)
    (h : rustLen line < maxLen ∨ isHeading line = true) :
    add_line_breaks m line maxLen = line := by
  unfold add_line_breaks
  rw [if_pos h]

/-- C2: a heading line (leading ASCII whitespace stripped, the line
starts with `#`) is returned unchanged by the split-and-rejoin pass at
any tier and any threshold; and both the per-line engine body and the
whole engine on a single-line document return the line unchanged when
its length is below the threshold or it is a heading. -/
theorem claim2_short_circuit :
    (∀ (m : List Char → Option (List Char × Nat)) (line : List Char) (maxLen : Nat),
        isHeading line = true → add_line_breaks m line maxLen = line) ∧
    (∀ line : List Char, '\n' ∉ line →
        rustLen line < max_line_length ∨ isHeading line = true →
        processLine line = line) ∧
    (∀ line : List Char, '\n' ∉ line →
        rustLen line < max_line_length ∨ isHeading line = true →
        add_semantic_line_breaks line = line) := by
  have hbody : ∀ line : List Char, '\n' ∉ line →
      rustLen line < max_line_length ∨ isHeading line = true →
      processLine line = line := by
    intro line hnl h
    unfold processLine
    rw [add_line_breaks_short_circuit outerTry line max_line_length h]
    rw [splitTerminator_of_not_mem hnl]
    by_cases hl : line = []
    · subst hl
      rw [if_pos rfl]
      rfl
    · rw [if_neg hl]
      simp only [List.map_cons, List.map_nil]
      rw [add_line_breaks_short_circuit innerTry line max_line_length h]
      exact intercalate_single _ _
  refine ⟨?_, hbody, ?_⟩
  · intro m line maxLen h
    exact add_line_breaks_short_circuit m line maxLen (Or.inr h)
  · intro line hnl h
    unfold add_semantic_line_breaks
    rw [splitTerminator_of_not_mem hnl]
    by_cases hl : line = []
    · subst hl
      rw [if_pos rfl]
      rfl
    · rw [if_neg hl]
      simp only [List.map_cons, List.map_nil]
      rw [hbody line hnl h]
      exact intercalate_single _ _

/-- Witness for C2: a heading longer than the tiny threshold 5 is kept,
and a short plain line passes through the engine body and the whole
engine unchanged. -/
theorem claim2_short_circuit_witness :
    add_line_breaks innerTry ("  # A Heading".toList) 5 = ("  # A Heading".toList) ∧
      processLine ("short line.".toList) = ("short line.".toList) ∧
      add_semantic_line_breaks ("# A Heading".toList) = ("# A Heading".toList) :=
  ⟨claim2_short_circuit.1 innerTry ("  # A Heading".toList) 5 (by decide),
   claim2_short_circuit.2.1 ("short line.".toList) (by decide) (Or.inl (by decide)),
   claim2_short_circuit.2.2 ("# A Heading".toList) (by decide) (Or.inr (by decide))⟩

/-! ## The scanners on decomposed inputs -/

theorem isPrefixOf_eq_append : ∀ {p s : List Char}, p.isPrefixOf s = true →
    s = p ++ s.drop p.length := by
  intro p
  induction p with
  | nil =>
    intro s _
    simp
  | cons a as ih =>
    intro s h
    cases s with
    | nil => simp [List.isPrefixOf] at h
    | cons b bs =>
      simp only [List.isPrefixOf, Bool.and_eq_true, beq_iff_eq] at h
      obtain ⟨rfl, h2⟩ := h
      simp only [List.length_cons, List.drop_succ_cons, List.cons_append]
      exact congrArg (List.cons _) (ih h2)

theorem breakAt_eq_some {x : Char} : ∀ {s a b : List Char},
    breakAt x s = some (a, b) → s = a ++ x :: b ∧ x ∉ a := by
  intro s
  induction s with
  | nil =>
    intro a b h
    simp [breakAt] at h
  | cons c cs ih =>
    intro a b h
    unfold breakAt at h
    by_cases hc : c = x
    · rw [if_pos hc] at h
      simp only [Option.some.injEq, Prod.mk.injEq] at h
      obtain ⟨rfl, rfl⟩ := h
      subst hc
      exact ⟨by simp, by simp⟩
    · rw [if_neg hc] at h
      cases hb : breakAt x cs with
      | none =>
        rw [hb] at h
        simp at h
      | some p =>
        rw [hb] at h
        simp only [Option.map_some', Option.some.injEq, Prod.mk.injEq] at h
        obtain ⟨rfl, rfl⟩ := h
        obtain ⟨hcs, hnx⟩ := ih hb
        constructor
        · rw [List.cons_append, ← hcs]
        · rw [List.mem_cons, not_or]
          exact ⟨fun hx => hc hx.symm, hnx⟩

theorem breakAt_append {x : Char} : ∀ {a : List Char} (b : List Char), x ∉ a →
    breakAt x (a ++ x :: b) = some (a, b) := by
  intro a
  induction a with
  | nil =>
    intro b _
    simp [breakAt]
  | cons c cs ih =>
    intro b h
    rw [List.mem_cons, not_or] at h
    rw [List.cons_append]
    unfold breakAt
    rw [if_neg (fun hc => h.1 hc.symm), ih b h.2]
    rfl

/-- A match at the head of the text that spans exactly `l` replaces it
and the scan resumes after it. -/
theorem replaceAll_append_match (m : List Char → Option (List Char × Nat))
    {l : List Char} (rest r : List Char) (hl : l ≠ [])
    (hm : m (l ++ rest) = some (r, l.length)) :
    replaceAll m (l ++ rest) = r ++ replaceAll m rest := by
  cases l with
  | nil => exact absurd rfl hl
  | cons c l' =>
    rw [List.cons_append, replaceAll_cons]
    rw [List.cons_append] at hm
    rw [hm]
    simp only [List.length_cons, Nat.add_sub_cancel, List.drop_left]

/-! ## C3: the footnote-reposition rule -/

theorem footTry_none_past_marker {c : Char} (hc : isFootPunct c = false) :
    ∀ {u : List Char}, ']' ∉ u → footTry (u ++ [']', c]) = none := by
  intro u hu
  match u with
  | [] =>
    show footTry ([']', c]) = none
    unfold footTry
    dsimp only
    rw [if_neg (fun h => absurd h.1 (by decide))]
  | [d] =>
    show footTry (d :: [']', c]) = none
    unfold footTry
    dsimp only
    rw [if_neg (fun h => absurd h.2 (by decide))]
  | d :: e :: u' =>
    rw [List.mem_cons, not_or] at hu
    obtain ⟨hd, hu⟩ := hu
    rw [List.mem_cons, not_or] at hu
    obtain ⟨he, hu'⟩ := hu
    show footTry (d :: e :: (u' ++ [']', c])) = none
    unfold footTry
    dsimp only
    by_cases hde : d = '[' ∧ e = '^'
    · rw [if_pos hde]
      rw [show u' ++ ([']', c] : List Char) = u' ++ ']' :: [c] from rfl]
      rw [breakAt_append [c] hu']
      dsimp only
      rw [hc]
      simp
    · rw [if_neg hde]

theorem replaceAll_footTry_past_marker {c : Char} (hc : isFootPunct c = false) :
    ∀ {u : List Char}, ']' ∉ u →
      replaceAll footTry (u ++ [']', c]) = u ++ [']', c] := by
  intro u
  induction u with
  | nil =>
    intro _
    show replaceAll footTry ([']', c]) = [']', c]
    have h1 : footTry ([']', c]) = none := by
      have h0 := footTry_none_past_marker hc (show ']' ∉ ([] : List Char) by simp)
      simpa using h0
    rw [replaceAll_cons, h1]
    dsimp only
    rw [replaceAll_cons, show footTry [c] = none from rfl]
    rfl
  | cons d u' ih =>
    intro hu
    rw [List.mem_cons, not_or] at hu
    rw [List.cons_append, replaceAll_cons,
      show footTry (d :: (u' ++ [']', c])) = none from
        footTry_none_past_marker hc (by rw [List.mem_cons, not_or]; exact hu),
      ih hu.2]

/-- C3 (amended): the footnote-reposition rule swaps a marker `[^label]`
with the single punctuation character that immediately follows it when
that character is one of `. ! ? ; ,` (comma, not colon), and leaves a
marker alone when the following character is outside that set. -/
theorem claim3_footnote_reposition :
    (∀ (label rest : List Char) (c : Char), ']' ∉ label → isFootPunct c = true →
        move_footnotes_after_punctuation ('[' :: '^' :: label ++ ']' :: c :: rest) =
          c :: '[' :: '^' :: label ++ ']' :: move_footnotes_after_punctuation rest) ∧
    (∀ (label : List Char) (c : Char), ']' ∉ label → isFootPunct c = false →
        move_footnotes_after_punctuation ('[' :: '^' :: label ++ [']', c]) =
          '[' :: '^' :: label ++ [']', c]) := by
  constructor
  · intro label rest c hlabel hc
    unfold move_footnotes_after_punctuation
    have hshape : '[' :: '^' :: label ++ ']' :: c :: rest =
        ('[' :: '^' :: label ++ [']', c]) ++ rest := by simp
    rw [hshape]
    rw [replaceAll_append_match footTry rest
      (c :: '[' :: '^' :: (label ++ [']'])) (by simp) ?_]
    · simp
    · have hshape2 : ('[' :: '^' :: label ++ [']', c]) ++ rest =
          '[' :: '^' :: (label ++ ']' :: c :: rest) := by simp
      rw [hshape2]
      unfold footTry
      dsimp only
      rw [if_pos ⟨rfl, rfl⟩]
      rw [show label ++ ']' :: c :: rest = label ++ ']' :: (c :: rest) from rfl,
        breakAt_append (c :: rest) hlabel]
      dsimp only
      rw [hc]
      rw [if_pos rfl]
      simp only [Option.some.injEq, Prod.mk.injEq, true_and]
      simp only [List.length_cons, List.length_append, List.length_nil]
      omega
  · intro label c hlabel hc
    unfold move_footnotes_after_punctuation
    have hshape : '[' :: '^' :: label ++ [']', c] =
        ('[' :: '^' :: label) ++ [']', c] := by simp
    rw [hshape]
    rw [replaceAll_footTry_past_marker hc ?_]
    rw [List.mem_cons, not_or, List.mem_cons, not_or]
    exact ⟨by decide, by decide, hlabel⟩

/-- Witness for C3: `[^1],` becomes `,[^1]` (comma is in the code's
punctuation set) and `[^1]:` is left alone (colon is not). -/
theorem claim3_footnote_reposition_witness :
    move_footnotes_after_punctuation ("[^1],".toList) = (",[^1]".toList) ∧
      move_footnotes_after_punctuation ("[^1]:".toList) = ("[^1]:".toList) := by
  constructor
  · have h := claim3_footnote_reposition.1 ['1'] [] ',' (by decide) (by decide)
    have e : ("[^1],".toList) = '[' :: '^' :: ['1'] ++ ']' :: ',' :: [] := by decide
    rw [e, h]
    decide
  · have h := claim3_footnote_reposition.2 ['1'] ':' (by decide) (by decide)
    have e : ("[^1]:".toList) = '[' :: '^' :: ['1'] ++ [']', ':'] := by decide
    rw [e, h]

/-! ## C8: URL self-link simplification -/

/-- C8: an inline link `[text](target)` (the captures of the link regex:
`text` holds no `]`, `target` no `)`) is replaced by `<target>` exactly
when `text` with all backslashes removed equals `target`; otherwise the
link is emitted unchanged, and the escape-stripped text never appears in
the output. -/
theorem claim8_url_simplification (text link : List Char)
    (htext : ']' ∉ text) (hlink : ')' ∉ link) :
    simplify_urls ('[' :: text ++ ']' :: '(' :: link ++ [')']) =
      if text.filter (fun c => c ≠ '\\') = link
      then '<' :: (link ++ ['>'])
      else '[' :: text ++ ']' :: '(' :: link ++ [')'] := by
  unfold simplify_urls
  have hshape : '[' :: text ++ ']' :: '(' :: link ++ [')'] =
      ('[' :: text ++ ']' :: '(' :: link ++ [')']) ++ [] := by simp
  rw [hshape]
  rw [replaceAll_append_match urlTry []
    (if text.filter (fun c => c ≠ '\\') = link
     then '<' :: (link ++ ['>'])
     else '[' :: (text ++ ']' :: '(' :: (link ++ [')']))) (by simp) ?_]
  · rw [show replaceAll urlTry [] = [] from rfl, List.append_nil]
    by_cases hcond : text.filter (fun c => c ≠ '\\') = link
    · rw [if_pos hcond, if_pos hcond]
    · rw [if_neg hcond, if_neg hcond]
      simp
  · rw [List.append_nil]
    show urlTry ('[' :: (text ++ ']' :: '(' :: link ++ [')'])) = _
    unfold urlTry
    dsimp only
    rw [if_pos rfl]
    have e1 : text ++ ']' :: '(' :: link ++ [')'] =
        text ++ ']' :: ('(' :: (link ++ [')'])) := by simp
    rw [e1, breakAt_append _ htext]
    dsimp only
    rw [if_pos rfl]
    rw [show link ++ ([')'] : List Char) = link ++ ')' :: [] from rfl,
      breakAt_append [] hlink]
    simp only [Option.some.injEq, Prod.mk.injEq, true_and]
    simp only [List.length_cons, List.length_append, List.length_nil]
    omega

/-- Witness for C8: `[URL\_2](URL_2)` simplifies to `<URL_2>` (the
escape is removed only for the comparison), and `[text](URL)` is left
unchanged. -/
theorem claim8_url_simplification_witness :
    simplify_urls ("[URL\\_2](URL_2)".toList) = ("<URL_2>".toList) ∧
      simplify_urls ("[text](URL)".toList) = ("[text](URL)".toList) := by
  constructor
  · have h := claim8_url_simplification ("URL\\_2".toList) ("URL_2".toList)
      (by decide) (by decide)
    rw [if_pos (by decide)] at h
    have e : ("[URL\\_2](URL_2)".toList) =
        '[' :: ("URL\\_2".toList) ++ ']' :: '(' :: ("URL_2".toList) ++ [')'] := by decide
    rw [e, h]
    decide
  · have h := claim8_url_simplification ("text".toList) ("URL".toList)
      (by decide) (by decide)
    rw [if_neg (by decide)] at h
    have e : ("[text](URL)".toList) =
        '[' :: ("text".toList) ++ ']' :: '(' :: ("URL".toList) ++ [')'] := by decide
    rw [e, h]

/-! ## C7: embedded-image removal -/

theorem imageSplitF_ne_nil : ∀ (f : Nat) (s : List Char), imageSplitF f s ≠ [] := by
  intro f
  induction f with
  | zero =>
    intro s
    cases s <;> simp [imageSplitF]
  | succ f ih =>
    intro s
    cases s with
    | nil => simp [imageSplitF]
    | cons c cs =>
      unfold imageSplitF
      cases imageTry (c :: cs) with
      | some n => simp
      | none =>
        dsimp only
        cases h : imageSplitF f cs with
        | nil => simp
        | cons p ps => simp

theorem imageSplit_ne_nil (s : List Char) : imageSplit s ≠ [] := imageSplitF_ne_nil _ _

/-- A successful image match at the head of the text spans exactly the
literal prefix, a `>`-free body and the closing `>`. -/
theorem imageTry_eq_some {s : List Char} {n : Nat} (h : imageTry s = some n) :
    ∃ body : List Char,
      s.take n = ("<data:image/".toList) ++ body ++ ['>'] ∧ '>' ∉ body ∧
        n = 13 + body.length ∧ n ≤ s.length := by
  unfold imageTry at h
  by_cases hp : ("<data:image/".toList).isPrefixOf s
  · rw [if_pos hp] at h
    cases hb : breakAt '>' (s.drop 12) with
    | none =>
      rw [hb] at h
      exact absurd h (by simp)
    | some p =>
      obtain ⟨body, rest⟩ := p
      rw [hb] at h
      dsimp only at h
      rw [Option.some.injEq] at h
      obtain ⟨hsp, hnb⟩ := breakAt_eq_some hb
      have hs : s = ("<data:image/".toList) ++ (body ++ '>' :: rest) := by
        have h12 : ("<data:image/".toList).length = 12 := by decide
        have hpre := isPrefixOf_eq_append hp
        rw [h12] at hpre
        rw [hpre, hsp]
      refine ⟨body, ?_, hnb, by omega, ?_⟩
      · have hassoc : ("<data:image/".toList) ++ (body ++ '>' :: rest) =
            (("<data:image/".toList) ++ body ++ ['>']) ++ rest := by simp
        have hlen : (("<data:image/".toList) ++ body ++ ['>']).length = n := by
          simp only [List.length_append, List.length_cons, List.length_nil]
          have : ("<data:image/".toList).length = 12 := by decide
          omega
        rw [hs, hassoc, ← hlen, List.take_left]
      · rw [hs]
        have h12b : ("<data:image/".toList).length = 12 := by decide
        simp only [List.length_append, List.length_cons]
        omega
  · rw [if_neg hp] at h
    exact absurd h (by simp)

/-- C7: the embedded-image rule decomposes its input into pieces and
matched spans — every removed span is a full `<data:image/[^>]*>` match,
the input is exactly the pieces interleaved with the spans (so all text
outside the matches is preserved verbatim), and the output is the
pieces joined by the placeholder `TODO`, one placeholder per span. -/
theorem claim7_image_placeholders (s : List Char) :
    ∃ ms : List (List Char),
      (imageSplit s).length = ms.length + 1 ∧
      (∀ mch ∈ ms, IsImageSpan mch) ∧
      s = interleaveJoin (imageSplit s) ms ∧
      remove_embedded_images s = List.intercalate ("TODO".toList) (imageSplit s) := by
  suffices h : ∀ (fuel : Nat) (s : List Char), s.length ≤ fuel →
      ∃ ms, (imageSplit s).length = ms.length + 1 ∧ (∀ mch ∈ ms, IsImageSpan mch) ∧
        s = interleaveJoin (imageSplit s) ms by
    obtain ⟨ms, h1, h2, h3⟩ := h s.length s (Nat.le_refl _)
    exact ⟨ms, h1, h2, h3, rfl⟩
  intro fuel
  induction fuel with
  | zero =>
    intro s hs
    have hnil : s = [] := List.eq_nil_of_length_eq_zero (Nat.le_zero.mp hs)
    subst hnil
    exact ⟨[], rfl, by simp, rfl⟩
  | succ fuel ih =>
    intro s hs
    cases s with
    | nil => exact ⟨[], rfl, by simp, rfl⟩
    | cons c cs =>
      cases hm : imageTry (c :: cs) with
      | some k =>
        obtain ⟨body, htake, hnb, hk, hle⟩ := imageTry_eq_some hm
        have hdrop : cs.drop (k - 1) = (c :: cs).drop k := by
          obtain ⟨k', rfl⟩ : ∃ k', k = k' + 1 := ⟨k - 1, by omega⟩
          simp [List.drop_succ_cons]
        have hlen2 : ((c :: cs).drop k).length ≤ fuel := by
          simp only [List.length_drop, List.length_cons]
          simp only [List.length_cons] at hs
          omega
        obtain ⟨ms, h1, h2, h3⟩ := ih ((c :: cs).drop k) hlen2
        refine ⟨(c :: cs).take k :: ms, ?_, ?_, ?_⟩
        · rw [imageSplit_cons, hm]
          dsimp only
          rw [hdrop]
          simp only [List.length_cons]
          omega
        · intro mch hmch
          rcases List.mem_cons.mp hmch with hh | hh
          · subst hh
            exact ⟨body, htake, hnb⟩
          · exact h2 mch hh
        · rw [imageSplit_cons, hm]
          dsimp only
          rw [hdrop]
          show c :: cs =
            ([] ++ (c :: cs).take k) ++ interleaveJoin (imageSplit ((c :: cs).drop k)) ms
          rw [← h3, List.nil_append, List.take_append_drop]
      | none =>
        have hlen2 : cs.length ≤ fuel := by
          simp only [List.length_cons] at hs
          omega
        obtain ⟨ms, h1, h2, h3⟩ := ih cs hlen2
        cases hps : imageSplit cs with
        | nil => exact absurd hps (imageSplit_ne_nil cs)
        | cons p ps =>
          rw [hps] at h1 h3
          refine ⟨ms, ?_, h2, ?_⟩
          · rw [imageSplit_cons, hm]
            dsimp only
            rw [hps]
            simp only [List.length_cons] at h1 ⊢
            exact h1
          · rw [imageSplit_cons, hm]
            dsimp only
            rw [hps]
            cases ms with
            | nil =>
              dsimp [interleaveJoin] at h3 ⊢
              rw [h3]
            | cons m1 ms' =>
              dsimp [interleaveJoin] at h3 ⊢
              rw [h3]

/-! ## Lengths, joins and splits for the rejoin loop -/

theorem rustLen_append (a b : List Char) : rustLen (a ++ b) = rustLen a + rustLen b := by
  unfold rustLen
  rw [List.map_append, List.sum_append]

theorem rustLen_eq_zero {l : List Char} : rustLen l = 0 ↔ l = [] := by
  constructor
  · intro h
    cases l with
    | nil => rfl
    | cons c cs =>
      exfalso
      unfold rustLen at h
      simp only [List.map_cons, List.sum_cons] at h
      have := Char.utf8Size_pos c
      omega
  · intro h
    subst h
    rfl

theorem rustLenSum_single (l : List Char) : rustLenSum [l] = rustLen l := by
  simp [rustLenSum]

theorem rustLenSum_append_single (acc : List (List Char)) (l : List Char) :
    rustLenSum (acc ++ [l]) = rustLenSum acc + rustLen l := by
  unfold rustLenSum
  rw [List.map_append, List.sum_append]
  simp

theorem intercalate_cons₂ (sep a b : List Char) (bs : List (List Char)) :
    List.intercalate sep (a :: b :: bs) = a ++ sep ++ List.intercalate sep (b :: bs) := by
  simp [List.intercalate, List.intersperse_cons_cons, List.append_assoc]

theorem intercalate_cons_ne (sep a : List Char) {rest : List (List Char)} (h : rest ≠ []) :
    List.intercalate sep (a :: rest) = a ++ sep ++ List.intercalate sep rest := by
  cases rest with
  | nil => exact absurd rfl h
  | cons b bs => exact intercalate_cons₂ sep a b bs

theorem not_mem_intercalate {x : Char} {sep : List Char} (hx : x ∉ sep) :
    ∀ {g : List (List Char)}, (∀ f ∈ g, x ∉ f) → x ∉ List.intercalate sep g := by
  intro g
  induction g with
  | nil =>
    intro _
    simp [List.intercalate]
  | cons a gs ih =>
    intro h
    cases gs with
    | nil =>
      rw [intercalate_single]
      exact h a (by simp)
    | cons b bs =>
      rw [intercalate_cons₂]
      intro hmem
      rcases List.mem_append.mp hmem with h1 | h2
      · rcases List.mem_append.mp h1 with h3 | h4
        · exact h a (by simp) h3
        · exact hx h4
      · exact ih (fun f hf => h f (List.mem_cons_of_mem _ hf)) h2

theorem splitOnChar_cons (x c : Char) (cs : List Char) :
    splitOnChar x (c :: cs) =
      if c = x then [] :: splitOnChar x cs
      else
        match splitOnChar x cs with
        | p :: ps => (c :: p) :: ps
        | [] => [[c]] := rfl

theorem splitOnChar_append_sep {x : Char} : ∀ {p : List Char} (rest : List Char), x ∉ p →
    splitOnChar x (p ++ x :: rest) = p :: splitOnChar x rest := by
  intro p
  induction p with
  | nil =>
    intro rest _
    rw [List.nil_append, splitOnChar_cons, if_pos rfl]
  | cons c p' ih =>
    intro rest h
    rw [List.mem_cons, not_or] at h
    rw [List.cons_append, splitOnChar_cons, if_neg (fun hc => h.1 hc.symm), ih rest h.2]

theorem splitOnChar_intercalate {x : Char} :
    ∀ {ps : List (List Char)}, ps ≠ [] → (∀ p ∈ ps, x ∉ p) →
      splitOnChar x (List.intercalate [x] ps) = ps := by
  intro ps
  induction ps with
  | nil =>
    intro h _
    exact absurd rfl h
  | cons p qs ih =>
    intro _ h
    cases qs with
    | nil =>
      rw [intercalate_single]
      exact splitOnChar_of_not_mem (h p (by simp))
    | cons q qs' =>
      rw [intercalate_cons₂,
        show p ++ [x] ++ List.intercalate [x] (q :: qs') =
          p ++ x :: List.intercalate [x] (q :: qs') by simp,
        splitOnChar_append_sep _ (h p (by simp)),
        ih (by simp) (fun f hf => h f (List.mem_cons_of_mem _ hf))]

theorem splitTerminator_intercalate {x : Char} {ps : List (List Char)} (hne : ps ≠ [])
    (hfree : ∀ p ∈ ps, x ∉ p) (hlast : ps.getLast? ≠ some []) :
    splitTerminator x (List.intercalate [x] ps) = ps := by
  unfold splitTerminator
  rw [splitOnChar_intercalate hne hfree, if_neg hlast]

theorem intercalate_append_single (sep : List Char) :
    ∀ (acc : List (List Char)) (l : List Char), acc ≠ [] →
      List.intercalate sep (acc ++ [l]) = List.intercalate sep acc ++ sep ++ l := by
  intro acc
  induction acc with
  | nil =>
    intro l h
    exact absurd rfl h
  | cons a as ih =>
    intro l _
    cases as with
    | nil =>
      rw [List.cons_append, List.nil_append, intercalate_cons₂, intercalate_single,
        intercalate_single]
    | cons b bs =>
      rw [List.cons_append, intercalate_cons_ne sep a (by simp), ih l (by simp),
        intercalate_cons₂ sep a b bs]
      simp [List.append_assoc]

theorem rustLen_joinSp : ∀ {g : List (List Char)}, g ≠ [] →
    rustLen (joinSp g) = rustLenSum g + (g.length - 1) := by
  intro g
  induction g with
  | nil =>
    intro h
    exact absurd rfl h
  | cons a gs ih =>
    intro _
    cases gs with
    | nil =>
      show rustLen (joinSp [a]) = rustLenSum [a] + (1 - 1)
      rw [show joinSp [a] = a from intercalate_single _ _, rustLenSum_single]
      omega
    | cons b bs =>
      rw [show joinSp (a :: b :: bs) = a ++ [' '] ++ joinSp (b :: bs) from
        intercalate_cons₂ _ _ _ _]
      rw [rustLen_append, rustLen_append, ih (by simp)]
      have hsp : rustLen [' '] = 1 := by decide
      have h1 : rustLenSum (a :: b :: bs) = rustLen a + rustLenSum (b :: bs) := by
        simp [rustLenSum]
      have h2 : (a :: b :: bs).length = (b :: bs).length + 1 := rfl
      have h3 : 1 ≤ (b :: bs).length := by simp
      omega

/-! ## The rejoin loop as a grouping of fragments -/

theorem rejoinGroupsAux_ne_nil (maxLen : Nat) :
    ∀ (ls acc : List (List Char)), rejoinGroupsAux maxLen ls acc ≠ [] := by
  intro ls
  induction ls with
  | nil =>
    intro acc
    simp [rejoinGroupsAux]
  | cons l ls ih =>
    intro acc
    unfold rejoinGroupsAux
    by_cases h1 : acc = []
    · rw [if_pos h1]
      exact ih _
    · rw [if_neg h1]
      by_cases h2 : rustLenSum acc + rustLen l < maxLen
      · rw [if_pos h2]
        exact ih _
      · rw [if_neg h2]
        simp

/-- The flat output of the rejoin loop renders the groups: each group
joined by single spaces, the groups joined by line breaks. -/
theorem rejoinLoop_eq_groups (maxLen : Nat) :
    ∀ (ls acc : List (List Char)), acc = [] ∨ 0 < rustLenSum acc →
      joinSp acc ++ rejoinLoop maxLen ls (rustLenSum acc) =
        joinNl ((rejoinGroupsAux maxLen ls acc).map joinSp) := by
  intro ls
  induction ls with
  | nil =>
    intro acc _
    show joinSp acc ++ [] = joinNl [joinSp acc]
    rw [List.append_nil]
    exact (intercalate_single _ _).symm
  | cons l ls ih =>
    intro acc hacc
    unfold rejoinLoop rejoinGroupsAux
    rcases hacc with hnil | hpos
    · subst hnil
      rw [if_pos (show rustLenSum ([] : List (List Char)) = 0 from rfl),
        if_pos (show ([] : List (List Char)) = [] from rfl)]
      by_cases hz : rustLen l = 0
      · have hl : l = [] := rustLen_eq_zero.mp hz
        subst hl
        rw [if_pos (show rustLen ([] : List Char) = 0 from rfl)]
        have hih := ih [] (Or.inl rfl)
        simpa using hih
      · rw [if_neg hz]
        have hih := ih [l] (Or.inr (by rw [rustLenSum_single]; omega))
        rw [rustLenSum_single] at hih
        rw [show joinSp [l] = l from intercalate_single _ _] at hih
        simpa using hih
    · have hne : acc ≠ [] := by
        intro h
        subst h
        simp [rustLenSum] at hpos
      rw [if_neg (by omega), if_neg hne]
      by_cases hj : rustLenSum acc + rustLen l < maxLen
      · rw [if_pos hj, if_pos hj]
        have hih := ih (acc ++ [l]) (Or.inr (by rw [rustLenSum_append_single]; omega))
        rw [rustLenSum_append_single] at hih
        rw [← hih]
        rw [show joinSp (acc ++ [l]) = joinSp acc ++ [' '] ++ l from
          intercalate_append_single _ _ _ hne]
        simp
      · rw [if_neg hj, if_neg hj]
        rw [List.map_cons]
        rw [show joinNl (joinSp acc :: (rejoinGroupsAux maxLen ls
              (if rustLen l = 0 then [] else [l])).map joinSp) =
            joinSp acc ++ ['\n'] ++ joinNl ((rejoinGroupsAux maxLen ls
              (if rustLen l = 0 then [] else [l])).map joinSp) from
          intercalate_cons_ne _ _ (by
            intro hmap
            exact rejoinGroupsAux_ne_nil maxLen ls _ (List.map_eq_nil_iff.mp hmap))]
        by_cases hz : rustLen l = 0
        · have hl : l = [] := rustLen_eq_zero.mp hz
          subst hl
          rw [if_pos (show rustLen ([] : List Char) = 0 from rfl)]
          have hih := ih [] (Or.inl rfl)
          simp only [show rustLenSum ([] : List (List Char)) = 0 from rfl] at hih
          rw [show rustLen ([] : List Char) = 0 from rfl, ← hih]
          simp [show joinSp ([] : List (List Char)) = [] from rfl]
        · rw [if_neg hz]
          have hih := ih [l] (Or.inr (by rw [rustLenSum_single]; omega))
          rw [rustLenSum_single] at hih
          rw [show joinSp [l] = l from intercalate_single _ _] at hih
          rw [← hih]
          simp

/-- The invariant of the grouping: every fragment of a group comes from
the input list, a group of two or more fragments has total fragment
length under the limit, and an empty group can only arise from an empty
input fragment. -/
theorem rejoinGroupsAux_spec (maxLen : Nat) (S : List (List Char)) :
    ∀ (ls acc : List (List Char)),
      (∀ f ∈ ls, f ∈ S) → (∀ f ∈ acc, f ∈ S) →
      (2 ≤ acc.length → rustLenSum acc < maxLen) →
      (acc = [] → [] ∈ S ∨ ls ≠ []) →
      ∀ g ∈ rejoinGroupsAux maxLen ls acc,
        (∀ f ∈ g, f ∈ S) ∧ (2 ≤ g.length → rustLenSum g < maxLen) ∧
          (g = [] → [] ∈ S) := by
  intro ls
  induction ls with
  | nil =>
    intro acc _ hacc hlen hemp g hg
    simp only [rejoinGroupsAux, List.mem_singleton] at hg
    subst hg
    refine ⟨hacc, hlen, fun h => ?_⟩
    rcases hemp h with h1 | h2
    · exact h1
    · exact absurd rfl h2
  | cons l ls ih =>
    intro acc hls hacc hlen hemp g hg
    have hlS : l ∈ S := hls l (by simp)
    have hlsS : ∀ f ∈ ls, f ∈ S := fun f hf => hls f (List.mem_cons_of_mem _ hf)
    unfold rejoinGroupsAux at hg
    by_cases h1 : acc = []
    · rw [if_pos h1] at hg
      by_cases hz : rustLen l = 0
      · rw [if_pos hz] at hg
        exact ih _ hlsS (by simp) (by intro h; simp at h)
          (fun _ => Or.inl (rustLen_eq_zero.mp hz ▸ hlS)) g hg
      · rw [if_neg hz] at hg
        exact ih _ hlsS
          (by intro f hf; rw [List.mem_singleton] at hf; subst hf; exact hlS)
          (by intro h; simp at h) (by intro h; simp at h) g hg
    · rw [if_neg h1] at hg
      by_cases h2 : rustLenSum acc + rustLen l < maxLen
      · rw [if_pos h2] at hg
        refine ih _ hlsS ?_ ?_ (by simp) g hg
        · intro f hf
          rcases List.mem_append.mp hf with hf1 | hf2
          · exact hacc f hf1
          · rw [List.mem_singleton] at hf2
            subst hf2
            exact hlS
        · intro _
          rw [rustLenSum_append_single]
          exact h2
      · rw [if_neg h2] at hg
        rcases List.mem_cons.mp hg with hg1 | hg2
        · subst hg1
          exact ⟨hacc, hlen, fun h => absurd h h1⟩
        · by_cases hz : rustLen l = 0
          · rw [if_pos hz] at hg2
            exact ih _ hlsS (by simp) (by intro h; simp at h)
              (fun _ => Or.inl (rustLen_eq_zero.mp hz ▸ hlS)) g hg2
          · rw [if_neg hz] at hg2
            exact ih _ hlsS
              (by intro f hf; rw [List.mem_singleton] at hf; subst hf; exact hlS)
              (by intro h; simp at h) (by intro h; simp at h) g hg2

/-- C1 (amended): every line the rejoin loop emits is either a single
fragment (emitted whole even when over the limit, since it has no break
point left) or a space-join of two or more fragments whose total
fragment length — the joining spaces not counted, exactly as the code
counts — is under the limit; hence such a line's true length is under
the limit plus the number of joining spaces, and may exceed the limit
itself (see the counterexample). -/
theorem claim1_rejoin_bound (maxLen : Nat) (frags : List (List Char))
    (hne : frags ≠ []) (hnl : ∀ f ∈ frags, '\n' ∉ f) :
    ∀ L ∈ splitOnChar '\n' (rejoinLoop maxLen frags 0),
      L ∈ frags ∨
        ∃ g : List (List Char), 2 ≤ g.length ∧ (∀ f ∈ g, f ∈ frags) ∧
          L = joinSp g ∧ rustLenSum g < maxLen ∧
          rustLen L < maxLen + (g.length - 1) := by
  have hspec := rejoinGroupsAux_spec maxLen frags frags [] (fun f hf => hf)
    (by simp) (by intro h; simp at h) (fun _ => Or.inr hne)
  have hrender : rejoinLoop maxLen frags 0 =
      joinNl ((rejoinGroupsAux maxLen frags []).map joinSp) := by
    have h0 := rejoinLoop_eq_groups maxLen frags [] (Or.inl rfl)
    simpa using h0
  intro L hL
  rw [hrender] at hL
  rw [show joinNl ((rejoinGroupsAux maxLen frags []).map joinSp) =
      List.intercalate ['\n'] ((rejoinGroupsAux maxLen frags []).map joinSp) from rfl,
    splitOnChar_intercalate
      (by
        intro hmap
        exact rejoinGroupsAux_ne_nil maxLen frags [] (List.map_eq_nil_iff.mp hmap))
      (by
        intro p hp
        obtain ⟨g, hg, rfl⟩ := List.mem_map.mp hp
        exact not_mem_intercalate (by decide)
          (fun f hf => hnl f ((hspec g hg).1 f hf)))] at hL
  obtain ⟨g, hg, rfl⟩ := List.mem_map.mp hL
  obtain ⟨hs1, hs2, hs3⟩ := hspec g hg
  cases g with
  | nil => exact Or.inl (hs3 rfl)
  | cons f1 gs' =>
    cases gs' with
    | nil =>
      left
      rw [show joinSp [f1] = f1 from intercalate_single _ _]
      exact hs1 f1 (by simp)
    | cons f2 gs =>
      right
      refine ⟨f1 :: f2 :: gs, by simp, hs1, rfl, hs2 (by simp), ?_⟩
      rw [rustLen_joinSp (by simp)]
      have hb := hs2 (by simp)
      omega

/-- Witness for C1: with limit 5 and fragments `ab`, `c` the loop emits
the single line `ab c`, a join of the two fragments with fragment-length
sum 3 under the limit. -/
theorem claim1_rejoin_bound_witness :
    (['a', 'b', ' ', 'c'] ∈ [['a', 'b'], ['c']]) ∨
      ∃ g : List (List Char), 2 ≤ g.length ∧ (∀ f ∈ g, f ∈ [['a', 'b'], ['c']]) ∧
        ['a', 'b', ' ', 'c'] = joinSp g ∧ rustLenSum g < 5 ∧
        rustLen ['a', 'b', ' ', 'c'] < 5 + (g.length - 1) :=
  claim1_rejoin_bound 5 [['a', 'b'], ['c']] (by decide) (by decide)
    ['a', 'b', ' ', 'c'] (by decide)

/-! ## C6: per-line processing -/

/-- C6 (amended): the engine is exactly the per-line body mapped over
the document's lines and joined back with the original line breaks, and
a blank line passes through unchanged; a processed line, however, can
change without gaining a break (see the counterexample: runs of spaces
after a separator collapse when fragments are rejoined). -/
theorem claim6_per_line_processing :
    (∀ docLines : List (List Char), docLines ≠ [] →
        (∀ l ∈ docLines, '\n' ∉ l) → docLines.getLast? ≠ some [] →
        add_semantic_line_breaks (joinNl docLines) =
          joinNl (docLines.map processLine)) ∧
      processLine [] = [] := by
  constructor
  · intro docLines hne hfree hlast
    unfold add_semantic_line_breaks joinNl
    rw [splitTerminator_intercalate hne hfree hlast]
  · decide

/-- Witness for C6: a heading, a blank line and a short sentence pass
through line by line. -/
theorem claim6_per_line_processing_witness :
    add_semantic_line_breaks (joinNl [("# Title".toList), [], ("Some text.".toList)]) =
        joinNl ([("# Title".toList), [], ("Some text.".toList)].map processLine) ∧
      processLine [] = [] :=
  ⟨claim6_per_line_processing.1 [("# Title".toList), [], ("Some text.".toList)]
      (by decide) (by decide) (by decide),
   claim6_per_line_processing.2⟩

/-! ## Quote canonicalization -/

/-- The two character-replacement passes of `canonicalize_quotes` act
pointwise as `quoteMap`. -/
theorem canonicalize_quotes_eq_map (s : List Char) :
    canonicalize_quotes s = s.map quoteMap := by
  unfold canonicalize_quotes
  rw [List.map_map]
  refine List.map_congr_left ?_
  intro c _
  simp only [Function.comp_apply, quoteMap]
  by_cases h1 : c = '‘' ∨ c = '’'
  · rw [if_pos h1, if_pos h1, if_neg (by decide)]
  · rw [if_neg h1, if_neg h1]

theorem quoteMap_idem (c : Char) : quoteMap (quoteMap c) = quoteMap c := by
  unfold quoteMap
  by_cases h1 : c = '‘' ∨ c = '’'
  · rw [if_pos h1]
    decide
  · rw [if_neg h1]
    by_cases h2 : c = '“' ∨ c = '”'
    · rw [if_pos h2]
      decide
    · rw [if_neg h2, if_neg h1, if_neg h2]

/-- C10: the quote-canonicalization rule maps each character
independently — the four curly quotes to `'` and `"`, every other
character to itself — so the output has the same character count as the
input. -/
theorem claim10_quote_canonicalization (s : List Char) :
    canonicalize_quotes s = s.map quoteMap ∧
      (canonicalize_quotes s).length = s.length := by
  refine ⟨canonicalize_quotes_eq_map s, ?_⟩
  rw [canonicalize_quotes_eq_map s, List.length_map]

/-- C4 (counterexample): the footnote-reposition rule is not idempotent:
on `[^1]..` one application gives `.[^1].` and a second application
moves the marker past the second period to `..[^1]`. -/
theorem claim4_counterexample :
    move_footnotes_after_punctuation ("[^1]..".toList) = (".[^1].".toList) ∧
      move_footnotes_after_punctuation
          (move_footnotes_after_punctuation ("[^1]..".toList)) ≠
        move_footnotes_after_punctuation ("[^1]..".toList) := by
  constructor
  · decide
  · decide

/-- C4 (amended): not every rule of the catalog is idempotent (the
footnote rule is not, see the counterexample), but quote
canonicalization is idempotent on every input. -/
theorem claim4_quotes_idempotent (s : List Char) :
    canonicalize_quotes (canonicalize_quotes s) = canonicalize_quotes s := by
  rw [canonicalize_quotes_eq_map, canonicalize_quotes_eq_map, List.map_map]
  refine List.map_congr_left ?_
  intro c _
  exact quoteMap_idem c

/-- C9 (counterexample): on `run through through` the rule produces
`through-run through`, which still contains the variant `run through`
(formed by the replacement abutting the following text), and a second
application changes the result again. -/
theorem claim9_counterexample :
    canonicalize_through_running ("run through through".toList) =
        ("through-run through".toList) ∧
      ("run through".toList) <:+:
        canonicalize_through_running ("run through through".toList) ∧
      canonicalize_through_running
          (canonicalize_through_running ("run through through".toList)) ≠
        canonicalize_through_running ("run through through".toList) := by
  refine ⟨by decide, ?_, by decide⟩
  decide

/-- C9 (amended): each of the four patterns is resolved by one
left-to-right pass before the next; on the repository's own test input
all variants converge to the two canonical forms and a second
application is a no-op there, but a replacement can abut following text
to recreate a variant, so the convergence and the idempotence are not
universal (see the counterexample). -/
theorem claim9_through_running_test :
    canonicalize_through_running trBefore = trAfter ∧
      canonicalize_through_running trAfter = trAfter := by
  constructor
  · decide
  · decide

set_option maxRecDepth 8000 in
/-- C5: the semantic line-break engine does not reproduce the expected
output documented in `test_add_semantic_line_breaks`: it breaks the
sentence `It is rare that a single technology ...` before the
inner-tier conjunction `that`, leaving `It is rare` on its own line,
while the test expects that sentence kept whole up to `service,`. -/
theorem claim5_test_divergence :
    add_semantic_line_breaks slbBefore = slbCodeOutput ∧
      slbCodeOutput ≠ slbExpected := by
  constructor
  · decide
  · decide

/-- C1 (counterexample): a non-heading 101-byte line made of three
33-byte sentences: outer-tier break points exist (the outer scan does
break it), yet the greedy rejoin — which does not count the joining
spaces — reassembles all three fragments, and the engine emits the
101-byte line unchanged, exceeding the threshold. -/
theorem claim1_counterexample :
    add_semantic_line_breaks c1line = c1line ∧
      isHeading c1line = false ∧
      ('\n' ∈ c1line → False) ∧
      max_line_length < rustLen c1line ∧
      replaceAll outerTry c1line ≠ c1line := by
  refine ⟨by decide, by decide, by decide, by decide, by decide⟩

/-- C3 (counterexample): the punctuation class of the footnote regex is
`[.!?;,]`, not `[.!?;:]`: a marker followed by a colon is left in place
(the claim says it is swapped), while a marker followed by a comma is
swapped (the claim says it is untouched). -/
theorem claim3_counterexample :
    move_footnotes_after_punctuation ("[^1]:".toList) = ("[^1]:".toList) ∧
      ("[^1]:".toList) ≠ (":[^1]".toList) ∧
      move_footnotes_after_punctuation ("[^1],".toList) = (",[^1]".toList) := by
  refine ⟨by decide, by decide, by decide⟩

/-- C6 (counterexample): a 101-byte line whose outer separator is
followed by three spaces: the engine's output has no line break — the
line was not split — yet it differs from the input, because the rejoin
emits a single joining space where the input had three. -/
theorem claim6_counterexample :
    add_semantic_line_breaks c6line = c6lineOut ∧
      c6lineOut ≠ c6line ∧
      ('\n' ∈ c6lineOut → False) := by
  refine ⟨by decide, by decide, by decide⟩

end StyleMarkdown
